import Mathlib

/-!
# Verification of the `@justkd/roll` pseudorandom number manager

Shallow embedding of the numeric core of the repository: the NumericFix
floating-point cleanup (`Scaled.floatingPointFix`), the `Scaled`
scale/clip/round helpers, the Mersenne-Twister-style `Uniform` generator,
the `Gaussian` transform, the bounded `History`, the `Elemstats`
statistics, and the `Roll` manager facade.

Modelling conventions:
* JS numbers are modelled as exact rationals (`ℚ`).  JS doubles are a
  subset of `ℚ`; arithmetic in the source that is exact on doubles
  (32-bit integer steps, halving, decimal string manipulation on short
  decimals) is exact here as well.
* 32-bit machine words are modelled as `ℕ` with explicit `% 2 ^ 32`
  wherever JS coerces through `ToInt32`/`ToUint32` (`>>> 0`, `<<`, `^`).
* `Scaled.floatingPointFix` inspects the decimal string `` `${value}` ``
  of a JS number.  The model inspects the exact decimal expansion of the
  rational: values with an infinite decimal expansion, and values printed
  by JS in exponential notation (absolute value below `10⁻⁶` or at least
  `10²¹`, where the printed string has no fixable decimal part), are
  returned unchanged.
* Fallible operations (`Array.prototype.reduce` on `[]` throws a
  `TypeError`) are modelled with `Except`; the JS `NaN` produced by
  `undefined + undefined` in `Elemstats.median` is modelled by `Option`
  (`none` = `NaN`).
-/



set_option maxHeartbeats 1000000

set_option maxRecDepth 100000

namespace RollSpec

/- The Batteries rational-number operations are shipped `irreducible`,
which blocks `decide` on concrete `ℚ` computations; restore the default
reducibility locally so concrete evaluations go through. -/

attribute [local semireducible] Rat.add Rat.mul Rat.inv Rat.sub Rat.ofScientific

/-! ## NumericFix (`Scaled.floatingPointFix`, src/src/lib/Scaled.ts)

The JS source takes the decimal string of the value, splits it at the
decimal point, searches the fractional digit string for the leftmost run
of at least `repeat = 6` consecutive `9`s or `0`s (regex
`(9{repeat,}|0{repeat,})(\d)*$`), and if one is found re-rounds the value
with `toFixed` to the digits before that run. -/

/-- Multiplicity of the factor `p` in `n` (fuelled division loop). -/
def multOfAux (p : ℕ) : ℕ → ℕ → ℕ
  | 0, _ => 0
  | fuel + 1, n => if 1 < p ∧ p ∣ n ∧ n ≠ 0 then multOfAux p fuel (n / p) + 1 else 0

/-- Multiplicity of the factor `p` in `n`. -/
def multOf (p n : ℕ) : ℕ := multOfAux p n n

/-- Length of the decimal expansion of `q` after the point: the least `k`
with `q.den ∣ 10 ^ k`, or `none` when the expansion is infinite (the
denominator has a prime factor other than 2 and 5). -/
def decimalLength (q : ℚ) : Option ℕ :=
  let a := multOf 2 q.den
  let b := multOf 5 q.den
  if q.den = 2 ^ a * 5 ^ b then some (max a b) else none

/-- The `k` decimal digits of `q` after the point, most significant first
(including leading zeros, excluding the sign — JS splits the printed
string at `"."`, so the digit string of `-2.05` is `05`). -/
def fracDigits (q : ℚ) (k : ℕ) : List ℕ :=
  let m := q.num.natAbs * 10 ^ k / q.den
  (List.range k).map (fun i => m / 10 ^ (k - 1 - i) % 10)

/-- Whether six copies of digit `d` sit at position `i` of `ds`
(out-of-range reads use the sentinel `10`, which never equals a digit). -/
def runAt (ds : List ℕ) (i : ℕ) (d : ℕ) : Bool :=
  (List.range 6).all (fun j => ds.getD (i + j) 10 == d)

/-- Index of the leftmost run of at least six consecutive `9`s or `0`s in
the digit list, as found by the regex of the source
`(9{6,}|0{6,})(\d)*$` (leftmost match wins). -/
def findRun (ds : List ℕ) : Option ℕ :=
  (List.range ds.length).find? (fun i => runAt ds i 9 || runAt ds i 0)

/-- JS `Math.round`: round to the nearest integer, ties toward `+∞`,
that is `⌊x + 1/2⌋` (written with the executable `Rat.floor`). -/
def jsRound (q : ℚ) : ℤ := (q + 1 / 2).floor

/-- Rounding to the nearest integer, ties away from zero: the rounding
used by JS `Number.prototype.toFixed` (ECMA-262 strips the sign first and
then picks the larger candidate). -/
def roundHalfAway (q : ℚ) : ℤ :=
  if 0 ≤ q then (q + 1 / 2).floor else -((-q + 1 / 2).floor)

/-- JS `value.toFixed(i)` parsed back to a number. -/
def toFixedQ (q : ℚ) (i : ℕ) : ℚ := (roundHalfAway (q * 10 ^ i) : ℚ) / 10 ^ i

/-- Model of `Scaled.floatingPointFix(value)` (with the default
`repeat = 6`): detect a run of at least six trailing-`9`/`0` digits in
the decimal expansion and re-round just before it.  `0` (falsy) and
values JS prints without a fixable decimal part — integers, exponential
notation below `10⁻⁶`, and magnitudes of `10²¹` and above — are returned
unchanged, as are values with an infinite decimal expansion (whose JS
17-significant-digit shortest representation is modelled as run-free). -/
def fixQ (q : ℚ) : ℚ :=
  if q = 0 then q
  else
    match decimalLength q with
    | none => q
    | some 0 => q
    | some k =>
      if |q| < 1 / 10 ^ 6 ∨ 10 ^ 21 ≤ |q| then q
      else
        match findRun (fracDigits q k) with
        | none => q
        | some i => toFixedQ q i

/-! ## RangeMapper (`Scaled`, src/src/lib/Scaled.ts)

`Scaled.scale`, `Scaled.clip` and `Scaled.round` are stateless; the
chainable `Scaled` instances used by `Roll.d` delegate to them (the
instance wrapper tracks a current value and range, with `new Scaled(r)`
defaulting the known range to `[0, 1]`). -/

/-- `Scaled.scale(value, r1, r2)`: affine map from range `r1` to `r2`,
with NumericFix applied at every intermediate step. -/
def scaleQ (value : ℚ) (r1 r2 : ℚ × ℚ) : ℚ :=
  let r1Size := fixQ (r1.2 - r1.1)
  let r2Size := fixQ (r2.2 - r2.1)
  let x := fixQ (value - r1.1)
  let y := fixQ (x * r2Size)
  let z := fixQ (y / r1Size)
  fixQ (z + r2.1)

/-- `Scaled.clip(value, range)`: `clipMax(clipMin(value))` where
`clipMin(v) = fix(Math.max(range[0], v))` and
`clipMax(v) = fix(Math.min(v, range[1]))`. -/
def clipQ (value : ℚ) (range : ℚ × ℚ) : ℚ :=
  fixQ (min (fixQ (max range.1 value)) range.2)

/-- `Scaled.round(value, places)`: the source computes
`` Number(`${Math.round(Number(`${value}e${places}`))}e-${places}`) ``.
The string-exponent trick is exact decimal scaling, modelled as
multiplication and division by `10 ^ places`; `Math.round` rounds ties
toward `+∞` (`jsRound`), and NumericFix is applied to the result.  The
claims only exercise `places ≥ 0`, so `places : ℕ`. -/
def roundQ (value : ℚ) (places : ℕ) : ℚ :=
  fixQ ((jsRound (value * 10 ^ places) : ℚ) / 10 ^ places)

/-! ## BoundedHistory (`History`, src/src/roll/History.ts)

`History extends Array`; its overridden `push(...items)` first runs
`while (count--) if (this.length >= max) this.shift();` (one conditional
front-eviction per item in the call) and then appends via
`super.push(items)`.  Note `super.push(items)` appends the *argument
array* `items` as a single element, which is why `Roll.history()`
projects with `history.map((x) => x[0])`; the model keeps the wrapped
representation (`List (List ℚ)`) and the projecting view.  The `removed`
bookkeeping for `lastRemoved()` is not modelled (no claim observes it). -/

/-- JS `Number.isSafeInteger` on a rational (a JS `Infinity` argument is
modelled separately as `none` wherever it can occur, and is not a safe
integer). -/
def isSafeInteger (q : ℚ) : Bool := q.den == 1 && q.num.natAbs ≤ 2 ^ 53 - 1

/-- State of a `History`: the stored elements (each a pushed argument
array) and the capacity `max`, where `none` models `Infinity`. -/
structure HistoryState where
  items : List (List ℚ)
  max : Option ℚ

/-- `new History(maxHistory)`: empty, with `max = maxHistory ?? Infinity`
(`none` covers both an omitted argument and an explicit `Infinity`). -/
def mkHistory (maxHistory : Option ℚ) : HistoryState := ⟨[], maxHistory⟩

/-- The `size` argument of `History.max`: `none` is `undefined` (pure
getter), `some none` is `Infinity`, `some (some q)` a finite number. -/
def HistoryState.setMax (h : HistoryState) (size : Option (Option ℚ)) : HistoryState :=
  match size with
  | none => h
  | some none => h
  | some (some q) => if isSafeInteger q then { h with max := some q } else h

/-- The test `this.length >= max` of the eviction loop (`length ≥ ∞` is
false). -/
def lenGeMax (l : List (List ℚ)) (m : Option ℚ) : Bool :=
  match m with
  | none => false
  | some q => decide (q ≤ (l.length : ℚ))

/-- The `while (count--) if (this.length >= max) this.shift();` loop. -/
def shiftLoop : List (List ℚ) → ℕ → Option ℚ → List (List ℚ)
  | l, 0, _ => l
  | l, n + 1, m => shiftLoop (if lenGeMax l m then l.tail else l) n m

/-- `History.push(...items)`: run the eviction loop once per item, then
append the argument array as one element. -/
def HistoryState.push (h : HistoryState) (items : List ℚ) : HistoryState :=
  { h with items := shiftLoop h.items items.length h.max ++ [items] }

/-- A single-sample push, as issued by the `Roll` methods `uniform`, `gaussian`
and `d` (each pushes exactly one value per draw). -/
def HistoryState.pushOne (h : HistoryState) (v : ℚ) : HistoryState :=
  HistoryState.push h [v]

/-- `Roll.history()`: `history.map((x) => x[0])`. -/
def HistoryState.view (h : HistoryState) : List ℚ := h.items.map (fun x => x.headI)

/-- Pushing a list of samples in order, one call per sample. -/
def insertAll (h : HistoryState) (vs : List ℚ) : HistoryState :=
  vs.foldl HistoryState.pushOne h

/-- The last `k` elements of a list. -/
def takeLast {α : Type} (l : List α) (k : ℕ) : List α := l.drop (l.length - k)

/-! ## UniformGenerator (`Uniform`, src/src/roll/Uniform.ts)

The generator keeps a 624-word state array `mt` of unsigned 32-bit
integers and an index `mti` that is `null` until the first seeding (the
constructor always seeds, so `null` is never observable).  JS bit
operations coerce through 32-bit integers; the model works on `ℕ` with
explicit `% 2 ^ 32` at each point where the source wraps (`>>> 0`, `<<`,
and the signed `^`/`&`/`|` patterns, which agree with the unsigned
residues mod `2 ^ 32`).

The state array is represented as a single natural number with 624
32-bit limbs, little-endian: limb `i` is `mt[i]`.  `limb` and `setLimb`
are the array read and write; every stored value is reduced mod `2 ^ 32`
first, exactly where the source applies `>>> 0`. -/

/-- Strict application: `forced n k = k n`, but evaluating it forces `n`
to a numeral before continuing (both branches are identical).  Used in
the generator loops purely as an evaluation-order hint so that concrete
runs reduce iteratively instead of building deep call-by-name chains; it
is definitionally transparent (`forced_eq`). -/
def forced {α : Type} (n : ℕ) (k : ℕ → α) : α := if n % 2 = 0 then k n else k n

/-- Read `mt[i]` from the packed state. -/
def limb (S i : ℕ) : ℕ := S >>> (32 * i) % 2 ^ 32

/-- Write `mt[i] = v` (callers always supply `v < 2 ^ 32`). -/
def setLimb (S i v : ℕ) : ℕ := S - (limb S i <<< (32 * i)) + (v <<< (32 * i))

def UPPER_MASK : ℕ := 0x80000000

def LOWER_MASK : ℕ := 0x7fffffff

def MATRIX_A : ℕ := 0x9908b0df

/-- One step of the `withInt` seeding loop:
`mt[i] = ((((s & 0xffff0000) >>> 16) * 1812433253) << 16) + (s & 0x0000ffff) * 1812433253 + i`,
`mt[i] >>>= 0`, where `s = mt[i-1] ^ (mt[i-1] >>> 30)`.  The 16-bit
split keeps the JS double multiplication exact; on exact naturals it
collapses to a single multiplication mod `2 ^ 32`. -/
def withIntStep (prev i : ℕ) : ℕ :=
  (1812433253 * (prev ^^^ (prev >>> 30)) + i) % 2 ^ 32

/-- The `withInt` loop body for indices `i, i+1, ...` (`n` iterations). -/
def withIntLoop : ℕ → ℕ → ℕ → ℕ
  | S, _, 0 => S
  | S, i, n + 1 =>
    forced (setLimb S i (withIntStep (limb S (i - 1)) i))
      (fun S2 => withIntLoop S2 (i + 1) n)

/-- Generator state: the packed 624-word array and the cursor `mti`
(`none` models the JS `null` sentinel, never observable after
construction). -/
structure MTState where
  mt : ℕ
  mti : Option ℕ

/-- `$private.seed.withInt(intSeed)`: `mt[0] = intSeed >>> 0`, then the
1812433253-recurrence fills indices 1..623; the loop leaves `mti = 624`. -/
def initWithInt (s : ℕ) : MTState :=
  ⟨withIntLoop (s % 2 ^ 32) 1 623, some 624⟩

/-- First array-seeding pass of `withArray`:
`mt[i] = ((mt[i] ^ ((s hi/lo split) * 1664525)) + v[j] + j) >>> 0` with
`i` wrapping through `mt[0] = mt[623]; i = 1` and `j` cycling through the
seed array, for `max(624, v.length)` iterations. -/
def arrPass1 (v : List ℕ) : ℕ → ℕ → ℕ → ℕ → ℕ
  | S, _, _, 0 => S
  | S, i, j, k + 1 =>
    let prev := limb S (i - 1)
    let s := prev ^^^ (prev >>> 30)
    forced (setLimb S i (((limb S i ^^^ (1664525 * s % 2 ^ 32)) + v.getD j 0 + j) % 2 ^ 32))
      (fun S1 =>
        let S2 := if i + 1 ≥ 624 then setLimb S1 0 (limb S1 623) else S1
        let i2 := if i + 1 ≥ 624 then 1 else i + 1
        let j1 := if j + 1 ≥ v.length then 0 else j + 1
        arrPass1 v S2 i2 j1 k)

/-- Second array-seeding pass of `withArray`:
`mt[i] = ((mt[i] ^ ((s hi/lo split) * 1566083941)) - i) >>> 0`, same `i`
wrapping, for 623 iterations.  The JS subtraction can go negative before
`>>> 0`; with `i ≤ 623 < 2 ^ 32` the wrap is `+ (2 ^ 32 - i)` mod
`2 ^ 32`. -/
def arrPass2 : ℕ → ℕ → ℕ → ℕ
  | S, _, 0 => S
  | S, i, k + 1 =>
    let prev := limb S (i - 1)
    let s := prev ^^^ (prev >>> 30)
    forced (setLimb S i (((limb S i ^^^ (1566083941 * s % 2 ^ 32)) + (2 ^ 32 - i)) % 2 ^ 32))
      (fun S1 =>
        let S2 := if i + 1 ≥ 624 then setLimb S1 0 (limb S1 623) else S1
        let i2 := if i + 1 ≥ 624 then 1 else i + 1
        arrPass2 S2 i2 k)

/-- `$private.seed.withArray(arrSeed)`: seeds with `withInt(v[0])` (note:
the reference MT19937 `init_by_array` seeds with the constant `19650218`
instead), then runs the two perturbation passes.  The trailing
`if (mt.length < 1) mt[0] = 0x80000000` guard is unreachable (the state
array always has 624 entries) and is not modelled.  An empty seed array
never reaches this function (`init` rejects it first); `v.getD 0 0`
covers the `v[0]` access. -/
def initWithArray (v : List ℕ) : MTState :=
  let base := initWithInt (v.getD 0 0)
  let p1 := arrPass1 v base.mt 1 0 (max 624 v.length)
  ⟨arrPass2 p1 1 623, some 624⟩

/-- `mag01[y & 0x1]`: `0` or `MATRIX_A`. -/
def mag01 (y : ℕ) : ℕ := if y % 2 = 1 then MATRIX_A else 0

/-- First twist loop (`kk = 0 .. N-M-1`, reading `mt[kk + 397]`). -/
def twistLoopA : ℕ → ℕ → ℕ → ℕ
  | S, _, 0 => S
  | S, kk, n + 1 =>
    let y := (limb S kk &&& UPPER_MASK) ||| (limb S (kk + 1) &&& LOWER_MASK)
    forced (setLimb S kk (limb S (kk + 397) ^^^ (y >>> 1) ^^^ mag01 y))
      (fun S2 => twistLoopA S2 (kk + 1) n)

/-- Second twist loop (`kk = N-M .. N-2`, reading the already-updated
`mt[kk + (M - N)] = mt[kk - 227]`). -/
def twistLoopB : ℕ → ℕ → ℕ → ℕ
  | S, _, 0 => S
  | S, kk, n + 1 =>
    let y := (limb S kk &&& UPPER_MASK) ||| (limb S (kk + 1) &&& LOWER_MASK)
    forced (setLimb S kk (limb S (kk - 227) ^^^ (y >>> 1) ^^^ mag01 y))
      (fun S2 => twistLoopB S2 (kk + 1) n)

/-- The full 624-word twist of `$private.int32` (both loops plus the
final wrap-around step using the updated `mt[0]`). -/
def mtTwist (S : ℕ) : ℕ :=
  let S1 := twistLoopA S 0 227
  let S2 := twistLoopB S1 227 396
  let y := (limb S2 623 &&& UPPER_MASK) ||| (limb S2 0 &&& LOWER_MASK)
  setLimb S2 623 (limb S2 396 ^^^ (y >>> 1) ^^^ mag01 y)

/-- The standard MT19937 tempering of `$private.int32`
(`y ^= y >>> 11; y ^= (y << 7) & 0x9d2c5680; y ^= (y << 15) & 0xefc60000;
y ^= y >>> 18; return y >>> 0`). -/
def temper (y0 : ℕ) : ℕ :=
  let y1 := y0 ^^^ (y0 >>> 11)
  let y2 := y1 ^^^ ((y1 <<< 7) % 2 ^ 32 &&& 0x9d2c5680)
  let y3 := y2 ^^^ ((y2 <<< 15) % 2 ^ 32 &&& 0xefc60000)
  let y4 := y3 ^^^ (y3 >>> 18)
  y4 % 2 ^ 32

/-- `$private.int32()` as written in the source: the twist is guarded by
`if (mti !== null)` — which is true on *every* call once the constructor
has seeded — and afterwards the output word is read with
`y = mt[(mti += 1)]`, a pre-increment from the just-assigned `mti = 0`,
so the word at index 1 of the freshly twisted state is returned and
`mti` ends at 1.  (In the unreachable `mti === null` branch, JS evaluates
`null + 1 = 1` and reads `mt[1]` without twisting.) -/
def mtInt32 (st : MTState) : ℕ × MTState :=
  match st.mti with
  | some _ =>
    let m := mtTwist st.mt
    (temper (limb m 1), ⟨m, some 1⟩)
  | none => (temper (limb st.mt 1), ⟨st.mt, some 1⟩)

/-- `Uniform.random()`: one `int32()` word `c` is split as `a = c >>> 5`,
`b = c >>> 6` and combined as `fix(fix(a * 67108864 + b) * fix(1 / 2^53))`
(the reference `genrand_res53` instead draws two successive words). -/
def uniformRandom (st : MTState) : ℚ × MTState :=
  let p := mtInt32 st
  let a := p.1 >>> 5
  let b := p.1 >>> 6
  let x := fixQ ((a : ℚ) * 67108864 + (b : ℚ))
  let y := fixQ (1 / 9007199254740992)
  (fixQ (x * y), p.2)

/-! ### Reference MT19937 (modelled from the spec)

C1 is a refinement claim: the spec asserts that `next()` reproduces the
reference MT19937 output stream ("twisting the full 624-word state every
624th call", "the standard MT19937 generation+tempering step").  The
reference generator is modelled here from the words of the spec for
comparison.  Its `init_genrand` recurrence, twist formula, constants and
tempering are the standard ones, which coincide with the
`withInt`/twist/temper code of the source (definitions shared); the difference under
test is the generation step: the reference twists only when `mti ≥ 624`
and returns the tempered word at the post-twist cursor (starting at
index 0), advancing `mti` by one per call. -/

/-- Modelled from the spec: reference MT19937 state after `init_genrand`
(cursor at 624, so the first call twists). -/
structure RefMTState where
  mt : ℕ
  mti : ℕ

/-- Modelled from the spec: reference `init_genrand` (the same
1812433253 expansion as `withInt` in the source). -/
def refInitGenrand (s : ℕ) : RefMTState := ⟨(initWithInt s).mt, 624⟩

/-- Modelled from the spec: reference `genrand_int32` — twist the full
state only when 624 words have been consumed, then output the tempered
word at the cursor and advance it. -/
def refGenrandInt32 (st : RefMTState) : ℕ × RefMTState :=
  let st1 := if st.mti ≥ 624 then RefMTState.mk (mtTwist st.mt) 0 else st
  (temper (limb st1.mt st1.mti), ⟨st1.mt, st1.mti + 1⟩)

/-! ## Seed normalization and construction (`$private.init`, Uniform.ts)

`init` dispatches on the JS shape of the seed argument: numbers go
through `ensureUint` and seed `withInt` when the result is nonnegative;
array-likes of numbers are normalized elementwise and seed `withArray`
unless empty or containing an invalid element; everything else (and every
invalid case) falls back to `withCrypto`, which draws a fresh random
seed array from the environment.  The entropy source is modelled as an
explicit oracle argument: the `List ℕ` that `Uniform.createRandomSeed()`
would return. -/

/-- JS seed argument shapes.  `nan` and `infty` are numbers in JS
(`typeof NaN === "number"`); `ℚ` has neither, so they get their own
constructors (both normalize to `-1` in `ensureUint` and fall back to
the crypto path).  Arrays are lists of finite numbers; an array
containing `NaN`/`Infinity` elements also falls back to the crypto path
in the source and is not separately modelled.  `other` covers values
failing both the number and the array-of-numbers checks. -/
inductive Seed
  | num (q : ℚ)
  | nan
  | infty
  | arr (l : List ℚ)
  | nullv
  | undef
  | other

/-- `ensureUint(num)`: reject values above `MAX_SAFE_INTEGER`, take the
absolute value of negatives, round non-integers with `toFixed(0)`
(half away from zero), and finally require a safe integer, else `-1`. -/
def ensureUint (q : ℚ) : ℚ :=
  if q > 2 ^ 53 - 1 then -1
  else
    let q1 := if q < 0 then |q| else q
    let q2 := if q1.den = 1 then q1 else ((roundHalfAway q1 : ℤ) : ℚ)
    if isSafeInteger q2 then q2 else -1

/-- `$private.seed.withCrypto()`: store the freshly generated seed array
and seed `withArray` with it. -/
def seedWithCrypto (entropy : List ℕ) : MTState × Seed :=
  (initWithArray entropy, .arr (entropy.map (fun n => (n : ℚ))))

/-- `$private.init(withSeed)`: the full dispatch, returning the seeded
generator state together with the stored `$state.seed`. -/
def uniformInit (s : Seed) (entropy : List ℕ) : MTState × Seed :=
  match s with
  | .num q =>
    let ss := ensureUint q
    if 0 ≤ ss then (initWithInt ss.num.toNat, .num ss)
    else seedWithCrypto entropy
  | .nan => seedWithCrypto entropy
  | .infty => seedWithCrypto entropy
  | .arr l =>
    if l.isEmpty then seedWithCrypto entropy
    else
      let ls := l.map ensureUint
      if (-1 : ℚ) ∈ ls then seedWithCrypto entropy
      else (initWithArray (ls.map (fun q => q.num.toNat)), .arr ls)
  | .nullv => seedWithCrypto entropy
  | .undef => seedWithCrypto entropy
  | .other => seedWithCrypto entropy

/-- A `Uniform` instance: generator state plus the stored seed. -/
structure UniformState where
  gen : MTState
  store : Seed

/-- `new Uniform(seed)`: the constructor always runs `$private.init`. -/
def mkUniform (seed : Seed) (entropy : List ℕ) : UniformState :=
  ⟨(uniformInit seed entropy).1, (uniformInit seed entropy).2⟩

/-- `Uniform.seed($seed)`: re-initialize unless the argument is
`undefined` or `null` (then it is a pure getter). -/
def uniformSeedSet (u : UniformState) (s : Seed) (entropy : List ℕ) : UniformState :=
  match s with
  | .undef => u
  | .nullv => u
  | _ => ⟨(uniformInit s entropy).1, (uniformInit s entropy).2⟩

/-! ## Manager facade (`Roll`, src/src/roll/Roll.ts)

A `Roll` owns one `Uniform` and one `History`.  In this TypeScript
source, `random` is declared `() => number` and bound as
`this.random = () => $private.uniform()`, and `this.d = (sides) =>
$private.d(sides)` drops the skew argument, so both `random` and `d`
always draw from the uniform path. -/

/-- A `Roll` instance. -/
structure RollState where
  uni : UniformState
  hist : HistoryState

/-- `new Roll({ seed, maxHistory })`. -/
def mkRoll (seed : Seed) (maxHistory : Option ℚ) (entropy : List ℕ) : RollState :=
  ⟨mkUniform seed entropy, mkHistory maxHistory⟩

/-- `$private.uniform()`: draw, push the drawn value, return it. -/
def rollUniform (R : RollState) : ℚ × RollState :=
  let p := uniformRandom R.uni.gen
  (p.1, ⟨⟨p.2, R.uni.store⟩, R.hist.pushOne p.1⟩)

/-- `Roll.random`: the source binds `this.random = () =>
$private.uniform()` — the function takes no parameters, so a call site
passing a skew argument (as the README and the compiled `lib`/`publish`
builds document: `random(skew)` dispatching to `gaussian`) has the
argument silently ignored by JS and draws a uniform sample.  The model
takes the call-site argument to express exactly that. -/
def rollRandom (R : RollState) (_skew : Option ℚ) : ℚ × RollState :=
  rollUniform R

/-- The numeric pipeline of `$private.d(sides)` applied to a raw draw
`r`: `new Scaled(r)` (default known range `[0, 1]`), `.scale(1, sides)`
(from `[0, 1]` to `[1, sides]` — the source does *not* floor `sides`;
the compiled `lib`/`publish` builds use `Math.floor(sides)` here),
`.round(0)`. -/
def dPipeline (r sides : ℚ) : ℚ :=
  roundQ (scaleQ r (0, 1) (1, sides)) 0

/-- `Roll.d(sides)`: the binding `this.d = (sides) => $private.d(sides)`
drops any skew argument, so the raw draw is always uniform; the final
rounded value (not the raw draw) is pushed to history and returned.
(The non-number-`sides` branch returns `NaN` without pushing and is not
modelled; the claims only exercise numeric `sides`.) -/
def rollD (R : RollState) (sides : ℚ) : ℚ × RollState :=
  let p := uniformRandom R.uni.gen
  let num := dPipeline p.1 sides
  (num, ⟨⟨p.2, R.uni.store⟩, R.hist.pushOne num⟩)

/-- `$private.clearHistory()`: `history = new History(); history.max(max)`
with the previous `max` — so the capacity is re-applied through the
validating setter. -/
def rollClearHistory (R : RollState) : RollState :=
  ⟨R.uni, (mkHistory none).setMax (some R.hist.max)⟩

/-- `Roll.seed($seed)` with a defined (non-`undefined`) argument:
`this.clearHistory(); uniform.seed($seed)`.  (With `undefined` it is a
pure getter and changes nothing.) -/
def rollSeedSet (R : RollState) (s : Seed) (entropy : List ℕ) : RollState :=
  match s with
  | .undef => R
  | _ =>
    let R1 := rollClearHistory R
    ⟨uniformSeedSet R1.uni s entropy, R1.hist⟩

/-- The sequence of `N` successive `random()`/`uniform()` draws. -/
def drawSeq (R : RollState) : ℕ → List ℚ
  | 0 => []
  | n + 1 =>
    let p := rollUniform R
    p.1 :: drawSeq p.2 n

/-- Valid seeds in the sense of C2: a safe nonnegative integer, or a
nonempty array of safe nonnegative integers. -/
def validSeedB : Seed → Bool
  | .num q => q.den == 1 && decide (0 ≤ q) && decide (q ≤ 2 ^ 53 - 1)
  | .arr l =>
    !l.isEmpty && l.all (fun x => x.den == 1 && decide (0 ≤ x) && decide (x ≤ 2 ^ 53 - 1))
  | _ => false

/-! ## ElementaryStatistics (`Elemstats`, src/src/lib/ElemStats.ts)

`mean` runs `arr.reduce((previous, current) => (current += previous))`
with no initial value — on an empty array JS throws a `TypeError` —
then divides by the length and applies NumericFix.  `median` sorts the
input in place with the comparator `(a, b) => a - b` and averages the
two middle entries; on an empty array both index accesses yield
`undefined` and the average is `NaN`.  `stdDev` starts from
`mean(arr)` (so it throws on the same inputs), squares the fixed
deviations, takes `Math.sqrt` of their mean, and *scales* the result
from `[0, Math.max(...arr)]` to `[0, 1]`.  `Math.sqrt` is transcendental
and is abstracted as a function parameter. -/

/-- The error channel of JS exceptions (only `TypeError` from
`reduce` on `[]` is reachable in this fragment). -/
inductive JsError
  | typeError
deriving DecidableEq

/-- `Elemstats.mean(arr)`. -/
def Elemstats.mean (arr : List ℚ) : Except JsError ℚ :=
  match arr with
  | [] => .error .typeError
  | x :: xs =>
    .ok (fixQ ((xs.foldl (fun previous current => current + previous) x) / ((x :: xs).length : ℚ)))

/-- `Elemstats.median(arr)`.  `none` models the `NaN` produced on the
empty array (`arr[-1]` and `arr[0]` are `undefined`, and
`fix(NaN) = NaN` since `NaN` is falsy).  The in-place mutation of the
caller array by `sort` is not otherwise observable here. -/
def Elemstats.median (arr : List ℚ) : Option ℚ :=
  let sorted := arr.mergeSort (fun a b => decide (a ≤ b))
  match arr with
  | [] => none
  | _ :: _ =>
    some (fixQ ((sorted.getD ((sorted.length - 1) / 2) 0
      + sorted.getD (sorted.length / 2) 0) / 2))

/-- `Math.max(...arr)` for the nonempty arrays `stdDev` feeds it (JS
yields `-Infinity` on no arguments; that case is unreachable because
`mean` has already thrown). -/
def jsMaxList (arr : List ℚ) : ℚ :=
  match arr with
  | [] => 0
  | x :: xs => xs.foldl max x

/-- `Elemstats.stdDev(arr)`, with `Math.sqrt` abstracted as `sqrtFn`. -/
def Elemstats.stdDev (sqrtFn : ℚ → ℚ) (arr : List ℚ) : Except JsError ℚ := do
  let avg ← Elemstats.mean arr
  let sqDiffs := arr.map (fun value =>
    let diff := fixQ (value - avg)
    fixQ (diff * diff))
  let m2 ← Elemstats.mean sqDiffs
  let avgSqRt := fixQ (sqrtFn m2)
  pure (scaleQ avgSqRt (0, jsMaxList arr) (0, 1))

/-- `Roll.mean(arr)`: `arr = arr || this.history()` — an explicitly
passed array is used as-is, otherwise the history view; there is no
`try`/`catch`, so the `TypeError` from an empty input propagates to the
caller instead of the logging channel. -/
def rollMean (R : RollState) (arr : Option (List ℚ)) : Except JsError ℚ :=
  Elemstats.mean (arr.getD R.hist.view)

/-- `Roll.median(arr)` (same defaulting, no `try`/`catch`). -/
def rollMedian (R : RollState) (arr : Option (List ℚ)) : Option ℚ :=
  Elemstats.median (arr.getD R.hist.view)

/-- `Roll.standardDeviation(arr)` (same defaulting, no `try`/`catch`). -/
def rollStdDev (sqrtFn : ℚ → ℚ) (R : RollState) (arr : Option (List ℚ)) :
    Except JsError ℚ :=
  Elemstats.stdDev sqrtFn (arr.getD R.hist.view)

/-! ## GaussianTransform (`Gaussian`, lib/roll/Gaussian.js)

`Gaussian(uniformGenerator, skew = 0)` first rewrites `skew` through
`scaleSkew` into the effective exponent, draws two nonzero uniforms
`u, v` from the given generator, computes the Box-Muller value
`num = fix(Math.sqrt(-2 * Math.log(u)) * Math.cos(2 * Math.PI * v))`,
rescales it with `num = fix(num / 10 + 0.5)`, and then:

* if `num > 1 || num < 0`, replaces `num` with
  `Gaussian(new Uniform(), skew)` — a recursive draw from a freshly
  constructed, crypto-seeded generator, passing the current (already
  rewritten) `skew` variable, which the recursive call rewrites *again*;
* in every case finishes with `num = fix(num ** skew)`, applying the
  exponent also to a resampled value.

The transcendental Box-Muller expression is abstracted: `bms d` is the
(double) value that `sqrt(-2 ln u) * cos(2π v)` takes on the two draws
of the `d`-th source consumed by the recursion (`d = 0` the caller
generator, `d ≥ 1` the `d`-th fresh `new Uniform()`); the JS `**`
operator is abstracted as `pw` (`ipow` restricts it to the nonnegative
integer exponents at which the concrete theorems evaluate it, where JS
exponentiation is exact); `fuel` bounds the recursion depth, which is
unbounded in the source. -/

/-- `scaleSkew(sk)`: clip `|sk|` to `[0, 1]`; `sk = 0` maps to exponent
1, `sk < 0` to `1 - clip(|sk|)`, `sk > 0` to `scale(clip(|sk|), [0,1],
[0,4])`. -/
def scaleSkew (sk : ℚ) : ℚ :=
  let n := clipQ |sk| (0, 1)
  if sk = 0 then 1
  else if sk < 0 then 1 - n
  else scaleQ n (0, 1) (0, 4)

/-- JS `x ** e` at nonnegative integer exponents (exact there); the
concrete theorems only exponentiate with `e ∈ {1, 4}`. -/
def ipow (x e : ℚ) : ℚ :=
  if e.den = 1 ∧ 0 ≤ e.num then x ^ e.num.toNat else 0

/-- The body of `Gaussian` over the abstract Box-Muller oracle; `d`
indexes which source the draws come from (incremented on each fresh
`new Uniform()`). -/
def gaussianWith (pw : ℚ → ℚ → ℚ) (bms : ℕ → ℚ) : ℕ → ℕ → ℚ → ℚ
  | 0, _, _ => 0
  | fuel + 1, d, skew =>
    let e := scaleSkew skew
    let num1 := fixQ (bms d)
    let num2 := fixQ (num1 / 10 + 1 / 2)
    let num3 := if num2 > 1 ∨ num2 < 0 then gaussianWith pw bms fuel (d + 1) e else num2
    fixQ (pw num3 e)

/-- Modelled from the spec: the resampling policy as C6 states it — an
out-of-range rescaled value is discarded and the *entire* gaussian draw
is retried from the fresh source *with the same skew*, and the skew
exponent is applied only when the rescaled result lies in `[0, 1]`. -/
def gaussianSpecResample (pw : ℚ → ℚ → ℚ) (bms : ℕ → ℚ) : ℕ → ℕ → ℚ → ℚ
  | 0, _, _ => 0
  | fuel + 1, d, skew =>
    let e := scaleSkew skew
    let num1 := fixQ (bms d)
    let num2 := fixQ (num1 / 10 + 1 / 2)
    if num2 > 1 ∨ num2 < 0 then gaussianSpecResample pw bms fuel (d + 1) skew
    else fixQ (pw num2 e)

/-- A Box-Muller oracle for the counterexample: the caller source
yields 6 (rescaled: 1.1, out of range), the fresh source yields 0
(rescaled: 0.5). -/
def bmsCEx : ℕ → ℚ := fun d => if d = 0 then 6 else 0

/-! ## Frequency modes (`Elemstats.modes`, src/src/lib/ElemStats.ts)

`modes` counts with `counts[number] = (counts[number] || 0) + 1` where
`counts` is a JS *array* indexed by the sample value.  Assigning
`counts[v]` for a value `v` that is not a canonical array index (a
nonnegative integer below `2^32 - 1`) creates a plain property: it still
feeds the running `max`, but `counts.forEach` — which visits only the
present array indices, in ascending order — never sees it.  The model
keeps the counts as a total function (for `max`) and materializes the
`forEach` iteration as the ascending array indices that are present,
i.e. the values of `arr` that are canonical indices. -/

/-- Whether a JS number is a canonical array index
(`0 ≤ n < 2^32 - 1`, integer). -/
def isArrayIndex (q : ℚ) : Bool :=
  q.den == 1 && decide (0 ≤ q.num) && decide (q.num < 2 ^ 32 - 1)

/-- `counts[n] = (counts[n] || 0) + 1` as a function update. -/
def countsUpdate (counts : ℚ → ℕ) (n : ℚ) : ℚ → ℕ :=
  fun x => if x = n then counts n + 1 else counts x

/-- The `arr.forEach` counting loop: threads the counts table and the
running `max` (`if (counts[number] > max) max = counts[number]`). -/
def modesScan : List ℚ → (ℚ → ℕ) → ℕ → (ℚ → ℕ) × ℕ
  | [], counts, mx => (counts, mx)
  | n :: rest, counts, mx =>
    let c := countsUpdate counts n
    modesScan rest c (if c n > mx then c n else mx)

/-- One past the largest array index assigned in `counts` (its JS
`length`): indices come only from elements that are canonical array
indices. -/
def indexUpperBound (arr : List ℚ) : ℕ :=
  arr.foldl (fun m v => if isArrayIndex v then max m (v.num.toNat + 1) else m) 0

/-- `Elemstats.modes(arr)`: count every value, then walk the present
array indices ascending (`counts.forEach`) and emit `fix(index)` for
each count equal to the maximum. -/
def Elemstats.modes (arr : List ℚ) : List ℚ :=
  let p := modesScan arr (fun _ => 0) 0
  ((List.range (indexUpperBound arr)).filter
    (fun i : ℕ => decide ((i : ℚ) ∈ arr) && (p.1 (i : ℚ) == p.2))).map
    (fun i : ℕ => fixQ (i : ℚ))

theorem ratFloor_eq_intFloor (q : ℚ) : q.floor = ⌊q⌋ := by
  have h1 : ⌊q⌋ ≤ q.floor := Rat.le_floor.mpr (Int.floor_le q)
  have h2 : q.floor ≤ ⌊q⌋ := Int.le_floor.mpr (Rat.le_floor.mp le_rfl)
  omega

theorem jsRound_eq_floor (q : ℚ) : jsRound q = ⌊q + 1 / 2⌋ := ratFloor_eq_intFloor _

theorem roundHalfAway_eq (q : ℚ) :
    roundHalfAway q = if 0 ≤ q then ⌊q + 1 / 2⌋ else -⌊-q + 1 / 2⌋ := by
  unfold roundHalfAway
  rw [ratFloor_eq_intFloor, ratFloor_eq_intFloor]

/-- Integers have no decimal part, so NumericFix leaves them unchanged
(the source returns early when the split produces no `decimalPart`). -/
theorem fixQ_intCast (n : ℤ) : fixQ (n : ℚ) = n := by
  unfold fixQ
  by_cases h : (n : ℚ) = 0
  · simp [h]
  · rw [if_neg h]
    have hden : ((n : ℚ)).den = 1 := Rat.den_intCast n
    unfold decimalLength
    rw [hden]
    have h2 : multOf 2 1 = 0 := by decide
    have h5 : multOf 5 1 = 0 := by decide
    rw [h2, h5]
    norm_num

theorem floor_intCast_add_half (b : ℤ) : ⌊(b : ℚ) + 1 / 2⌋ = b := by
  rw [Int.floor_int_add]
  norm_num

theorem roundHalfAway_le {q : ℚ} {b : ℤ} (h : q ≤ b) : roundHalfAway q ≤ b := by
  rw [roundHalfAway_eq]
  split
  · calc ⌊q + 1 / 2⌋ ≤ ⌊(b : ℚ) + 1 / 2⌋ := Int.floor_le_floor (by linarith)
    _ = b := floor_intCast_add_half b
  · have key : (-b : ℤ) ≤ ⌊-q + 1 / 2⌋ := by
      apply Int.le_floor.mpr
      push_cast
      linarith
    omega

theorem roundHalfAway_ge {q : ℚ} {a : ℤ} (h : (a : ℚ) ≤ q) : a ≤ roundHalfAway q := by
  rw [roundHalfAway_eq]
  split
  · have key : (a : ℤ) ≤ ⌊q + 1 / 2⌋ := by
      apply Int.le_floor.mpr
      linarith
    omega
  · have key : ⌊-q + 1 / 2⌋ ≤ -a := by
      calc ⌊-q + 1 / 2⌋ ≤ ⌊((-a : ℤ) : ℚ) + 1 / 2⌋ := Int.floor_le_floor (by push_cast; linarith)
      _ = -a := floor_intCast_add_half (-a)
    omega

theorem toFixedQ_le {q : ℚ} {b : ℤ} (i : ℕ) (h : q ≤ b) : toFixedQ q i ≤ b := by
  unfold toFixedQ
  rw [div_le_iff₀ (by positivity)]
  have h10 : (0 : ℚ) < 10 ^ i := by positivity
  have h1 : q * 10 ^ i ≤ ((b * 10 ^ i : ℤ) : ℚ) := by
    push_cast
    exact mul_le_mul_of_nonneg_right h (le_of_lt h10)
  have := roundHalfAway_le h1
  calc (roundHalfAway (q * 10 ^ i) : ℚ) ≤ ((b * 10 ^ i : ℤ) : ℚ) := by exact_mod_cast this
  _ = (b : ℚ) * 10 ^ i := by push_cast; ring

theorem toFixedQ_ge {q : ℚ} {a : ℤ} (i : ℕ) (h : (a : ℚ) ≤ q) : (a : ℚ) ≤ toFixedQ q i := by
  unfold toFixedQ
  rw [le_div_iff₀ (by positivity)]
  have h10 : (0 : ℚ) < 10 ^ i := by positivity
  have h1 : ((a * 10 ^ i : ℤ) : ℚ) ≤ q * 10 ^ i := by
    push_cast
    exact mul_le_mul_of_nonneg_right h (le_of_lt h10)
  have := roundHalfAway_ge h1
  calc (a : ℚ) * 10 ^ i = ((a * 10 ^ i : ℤ) : ℚ) := by push_cast; ring
  _ ≤ (roundHalfAway (q * 10 ^ i) : ℚ) := by exact_mod_cast this

/-- NumericFix keeps a value inside any pair of integer bounds it already
satisfies (the re-rounding only moves a value within the decimal place it
rounds at, and integer bounds are preserved by decimal rounding). -/
theorem fixQ_mem_Icc {q : ℚ} {a b : ℤ} (ha : (a : ℚ) ≤ q) (hb : q ≤ b) :
    (a : ℚ) ≤ fixQ q ∧ fixQ q ≤ b := by
  unfold fixQ
  split
  · exact ⟨ha, hb⟩
  · split
    · exact ⟨ha, hb⟩
    · exact ⟨ha, hb⟩
    · split
      · exact ⟨ha, hb⟩
      · split
        · exact ⟨ha, hb⟩
        · exact ⟨toFixedQ_ge _ ha, toFixedQ_le _ hb⟩

theorem takeLast_of_le {α : Type} {l : List α} {k : ℕ} (h : l.length ≤ k) :
    takeLast l k = l := by
  unfold takeLast
  rw [Nat.sub_eq_zero_of_le h, List.drop_zero]

theorem takeLast_cons {α : Type} {l : List α} {k : ℕ} (a : α) (h : k ≤ l.length) :
    takeLast (a :: l) k = takeLast l k := by
  unfold takeLast
  have : (a :: l).length - k = (l.length - k) + 1 := by
    simp only [List.length_cons]
    omega
  rw [this, List.drop_succ_cons]

theorem pushOne_items (h : HistoryState) (v : ℚ) :
    (HistoryState.pushOne h v).items
      = (if lenGeMax h.items h.max then h.items.tail else h.items) ++ [[v]] := by
  rfl

theorem pushOne_max (h : HistoryState) (v : ℚ) :
    (HistoryState.pushOne h v).max = h.max := rfl

theorem view_length (h : HistoryState) : h.view.length = h.items.length :=
  List.length_map _ _

/-- Evolution of a bounded history under a run of single-sample pushes:
the view is the last `k` of (old view ++ inserted) and the length is
clamped at `k`. -/
theorem insertAll_spec (k : ℕ) (hk : 1 ≤ k) :
    ∀ (vs : List ℚ) (h : HistoryState), h.max = some (k : ℚ) → h.items.length ≤ k →
      (insertAll h vs).view = takeLast (h.view ++ vs) k
      ∧ (insertAll h vs).items.length = min k (h.items.length + vs.length)
      ∧ (insertAll h vs).max = some (k : ℚ) := by
  intro vs
  induction vs with
  | nil =>
    intro h hmax hlen
    refine ⟨?_, ?_, hmax⟩
    · simp only [insertAll, List.foldl_nil, List.append_nil]
      rw [takeLast_of_le]
      rw [view_length]
      exact hlen
    · simp only [insertAll, List.foldl_nil, List.length_nil]
      omega
  | cons v vs ih =>
    intro h hmax hlen
    have hstep : insertAll h (v :: vs) = insertAll (HistoryState.pushOne h v) vs := rfl
    have hge : lenGeMax h.items h.max = decide ((k : ℚ) ≤ (h.items.length : ℚ)) := by
      rw [hmax]; rfl
    by_cases hc : k ≤ h.items.length
    · -- at capacity: one eviction, then append
      have hlen' : h.items.length = k := le_antisymm hlen hc
      have hbool : lenGeMax h.items h.max = true := by
        rw [hge]
        simp only [decide_eq_true_eq]
        exact_mod_cast hc
      have hitems : (HistoryState.pushOne h v).items = h.items.tail ++ [[v]] := by
        rw [pushOne_items, hbool]
        simp
      have hlen2 : (HistoryState.pushOne h v).items.length = k := by
        rw [hitems]
        simp only [List.length_append, List.length_tail, List.length_cons,
          List.length_nil]
        omega
      obtain ⟨hview, hlen3, hmax3⟩ :=
        ih (HistoryState.pushOne h v) (by rw [pushOne_max]; exact hmax) (le_of_eq hlen2)
      refine ⟨?_, ?_, hmax3⟩
      · rw [hstep, hview]
        have hv : (HistoryState.pushOne h v).view = h.view.tail ++ [v] := by
          unfold HistoryState.view
          rw [hitems, List.map_append, List.map_tail]
          rfl
        rw [hv]
        -- the old view is nonempty (length k ≥ 1)
        obtain ⟨a, t, hat⟩ : ∃ a t, h.view = a :: t := by
          rcases hv' : h.view with _ | ⟨a, t⟩
          · exfalso
            have := view_length h
            rw [hv', hlen'] at this
            simp at this
            omega
          · exact ⟨a, t, rfl⟩
        rw [hat]
        simp only [List.tail_cons, List.cons_append]
        rw [takeLast_cons]
        · simp
        · have hlt : t.length = k - 1 := by
            have := view_length h
            rw [hat, hlen'] at this
            simp only [List.length_cons] at this
            omega
          simp only [List.length_append, List.length_append, List.length_cons,
            List.length_nil, hlt]
          omega
      · rw [hstep, hlen3, hlen2, hlen']
        simp only [List.length_cons]
        omega
    · -- below capacity: plain append
      push_neg at hc
      have hbool : lenGeMax h.items h.max = false := by
        rw [hge]
        simp only [decide_eq_false_iff_not]
        push_neg
        exact_mod_cast hc
      have hitems : (HistoryState.pushOne h v).items = h.items ++ [[v]] := by
        rw [pushOne_items, hbool]
        simp
      have hlen2 : (HistoryState.pushOne h v).items.length = h.items.length + 1 := by
        rw [hitems]; simp
      obtain ⟨hview, hlen3, hmax3⟩ :=
        ih (HistoryState.pushOne h v) (by rw [pushOne_max]; exact hmax)
          (by omega)
      refine ⟨?_, ?_, hmax3⟩
      · rw [hstep, hview]
        have hv : (HistoryState.pushOne h v).view = h.view ++ [v] := by
          unfold HistoryState.view
          rw [hitems, List.map_append]
          rfl
        rw [hv]
        simp
      · rw [hstep, hlen3, hlen2]
        simp only [List.length_cons]
        omega

/-- C5: a Manager built with `maxHistory = k ≥ 1`, after `k + m` single
pushes (`m ≥ 1`) through `uniform`/`gaussian`/`d` (each of which pushes
exactly one value), retains exactly the last `k` inserted values in
insertion order, the history length is exactly `k`, and no intermediate
state ever exceeds `k` elements (one oldest-first eviction per inserted
item). -/
theorem claim5_history_bound (k m : ℕ) (vs : List ℚ) (hk : 1 ≤ k)
    (hm : 1 ≤ m) (hlen : vs.length = k + m) :
    (insertAll (mkHistory (some (k : ℚ))) vs).view = vs.drop m
    ∧ (insertAll (mkHistory (some (k : ℚ))) vs).items.length = k
    ∧ ∀ j : ℕ, (insertAll (mkHistory (some (k : ℚ))) (vs.take j)).items.length ≤ k := by
  have hbase : (mkHistory (some (k : ℚ))).items.length ≤ k := by
    simp [mkHistory]
  refine ⟨?_, ?_, ?_⟩
  · obtain ⟨hview, -, -⟩ := insertAll_spec k hk vs (mkHistory (some (k : ℚ))) rfl hbase
    rw [hview]
    unfold takeLast
    have hv : (mkHistory (some (k : ℚ))).view = [] := rfl
    rw [hv, List.nil_append, hlen]
    congr 1
    omega
  · obtain ⟨-, hlen2, -⟩ := insertAll_spec k hk vs (mkHistory (some (k : ℚ))) rfl hbase
    rw [hlen2, hlen]
    simp only [mkHistory, List.length_nil, Nat.zero_add]
    omega
  · intro j
    obtain ⟨-, hlen2, -⟩ :=
      insertAll_spec k hk (vs.take j) (mkHistory (some (k : ℚ))) rfl hbase
    rw [hlen2]
    simp [mkHistory]

/-- C5 witness: capacity 2, three pushes, the history is the last two
values `[20, 30]`. -/
theorem claim5_history_bound_witness :
    (1 ≤ 2 ∧ 1 ≤ 1 ∧ ([10, 20, 30] : List ℚ).length = 2 + 1)
    ∧ ((insertAll (mkHistory (some (2 : ℚ))) [10, 20, 30]).view = [(10 : ℚ), 20, 30].drop 1
      ∧ (insertAll (mkHistory (some (2 : ℚ))) [10, 20, 30]).items.length = 2
      ∧ ∀ j : ℕ,
          (insertAll (mkHistory (some (2 : ℚ))) ([(10 : ℚ), 20, 30].take j)).items.length ≤ 2) :=
  ⟨⟨by decide, by decide, by decide⟩,
    claim5_history_bound 2 1 [10, 20, 30] (by decide) (by decide) (by decide)⟩

theorem forced_eq {α : Type} (n : ℕ) (k : ℕ → α) : forced n k = k n := by
  unfold forced
  split <;> rfl

/-- C1: the `int32` of the source does not produce the reference MT19937
stream.  For seed 1, both sides start from the identical seeded state
and twist it identically, but the source returns the tempered word at
index 1 (`mt[(mti += 1)]` pre-increments from 0) while the reference
returns the word at index 0 — the first outputs already differ
(4282876139 versus the published reference value 1791095845 for seed 1).
Moreover the source twists the full state on *every* call (`mti !== null`
is always true), so after two draws its state has been twisted twice,
while the reference state has been twisted once. -/
theorem claim1_int32_not_reference_stream :
    (mtInt32 (initWithInt 1)).1 = 4282876139
    ∧ (refGenrandInt32 (refInitGenrand 1)).1 = 1791095845
    ∧ (mtInt32 (initWithInt 1)).1 ≠ (refGenrandInt32 (refInitGenrand 1)).1
    ∧ ((mtInt32 (mtInt32 (initWithInt 1)).2).2).mt
        = mtTwist (mtTwist (initWithInt 1).mt)
    ∧ ((refGenrandInt32 (refGenrandInt32 (refInitGenrand 1)).2).2).mt
        = mtTwist (initWithInt 1).mt := by
  refine ⟨by decide, by decide, by decide, rfl, rfl⟩

/-- A valid seed value passes `ensureUint` unchanged. -/
theorem isSafeInteger_of_valid {q : ℚ} (h1 : q.den = 1) (h2 : 0 ≤ q)
    (h3 : q ≤ 2 ^ 53 - 1) : isSafeInteger q = true := by
  unfold isSafeInteger
  rw [Bool.and_eq_true, beq_iff_eq, decide_eq_true_eq]
  refine ⟨h1, ?_⟩
  have hq : (q.num : ℚ) = q := (Rat.den_eq_one_iff q).mp h1
  have hnum0 : 0 ≤ q.num := by
    rw [← Rat.num_nonneg] at h2
    exact h2
  have hnum1 : q.num ≤ 2 ^ 53 - 1 := by
    have hc : (q.num : ℚ) ≤ ((2 ^ 53 - 1 : ℤ) : ℚ) := by
      rw [hq]
      push_cast
      linarith
    exact_mod_cast hc
  omega

theorem ensureUint_id {q : ℚ} (h1 : q.den = 1) (h2 : 0 ≤ q) (h3 : q ≤ 2 ^ 53 - 1) :
    ensureUint q = q := by
  have hng : ¬(q > 2 ^ 53 - 1) := by linarith
  have hnl : ¬(q < 0) := not_lt.mpr h2
  simp only [ensureUint, if_neg hng, if_neg hnl, h1, if_true, if_pos,
    isSafeInteger_of_valid h1 h2 h3]

/-- A valid seed never reaches the crypto path, so initialization does
not depend on the entropy oracle. -/
theorem uniformInit_valid_entropy_free (s : Seed) (h : validSeedB s = true)
    (e1 e2 : List ℕ) : uniformInit s e1 = uniformInit s e2 := by
  cases s with
  | num q =>
    unfold validSeedB at h
    rw [Bool.and_eq_true, Bool.and_eq_true, beq_iff_eq] at h
    obtain ⟨⟨h1, h2⟩, h3⟩ := h
    rw [decide_eq_true_eq] at h2 h3
    simp only [uniformInit, ensureUint_id h1 h2 h3, if_pos h2]
  | arr l =>
    unfold validSeedB at h
    rw [Bool.and_eq_true] at h
    obtain ⟨hne, hall⟩ := h
    rw [List.all_eq_true] at hall
    have helem : ∀ x ∈ l, x.den = 1 ∧ 0 ≤ x ∧ x ≤ 2 ^ 53 - 1 := by
      intro x hx
      have hx2 := hall x hx
      rw [Bool.and_eq_true, Bool.and_eq_true, beq_iff_eq] at hx2
      obtain ⟨⟨h1, h2⟩, h3⟩ := hx2
      rw [decide_eq_true_eq] at h2 h3
      exact ⟨h1, h2, h3⟩
    have hmap : l.map ensureUint = l := by
      conv_rhs => rw [← List.map_id l]
      apply List.map_congr_left
      intro x hx
      obtain ⟨h1, h2, h3⟩ := helem x hx
      exact ensureUint_id h1 h2 h3
    have hempty : l.isEmpty = false := by
      simpa using hne
    have hnm : ¬((-1 : ℚ) ∈ l) := by
      intro hm
      obtain ⟨-, h2, -⟩ := helem _ hm
      linarith
    simp only [uniformInit, hempty, Bool.false_eq_true, if_false, hmap, if_neg hnm]
  | nan => simp [validSeedB] at h
  | infty => simp [validSeedB] at h
  | nullv => simp [validSeedB] at h
  | undef => simp [validSeedB] at h
  | other => simp [validSeedB] at h

/-- C2: two independently constructed Managers given the same valid seed
(a safe nonnegative integer or a nonempty array of safe nonnegative
integers) produce identical sequences of `N` `random()` draws for every
`N`, whatever entropy their crypto fallbacks would have drawn — the
valid-seed path never consults the entropy source.  (`random()` is
`uniform()` in this source.) -/
theorem claim2_seed_determinism (s : Seed) (h : validSeedB s = true)
    (cap : Option ℚ) (e1 e2 : List ℕ) (N : ℕ) :
    drawSeq (mkRoll s cap e1) N = drawSeq (mkRoll s cap e2) N := by
  have heq : mkRoll s cap e1 = mkRoll s cap e2 := by
    unfold mkRoll mkUniform
    rw [uniformInit_valid_entropy_free s h e1 e2]
  rw [heq]

/-- C2 witness: three Managers seeded `[1, 2, 3]` with three different
entropy oracles draw the same 10 `random()` values. -/
theorem claim2_seed_determinism_witness :
    validSeedB (.arr [1, 2, 3]) = true
    ∧ drawSeq (mkRoll (.arr [1, 2, 3]) none [7]) 10
        = drawSeq (mkRoll (.arr [1, 2, 3]) none [11, 12]) 10
    ∧ drawSeq (mkRoll (.arr [1, 2, 3]) none [11, 12]) 10
        = drawSeq (mkRoll (.arr [1, 2, 3]) none [13]) 10 :=
  ⟨by decide,
    claim2_seed_determinism (.arr [1, 2, 3]) (by decide) none [7] [11, 12] 10,
    claim2_seed_determinism (.arr [1, 2, 3]) (by decide) none [11, 12] [13] 10⟩

/-- C3: in this source `random` ignores any skew argument entirely —
`this.random = () => $private.uniform()` — so `random(s)` (including
`random(0)`) draws a uniform sample exactly like `random()`, never a
gaussian one.  The claimed dispatch (numeric skew, including 0, behaves
as `gaussian(skew)`) exists only in the README and the compiled
`lib`/`publish` builds. -/
theorem claim3_random_ignores_skew (R : RollState) (sk : ℚ) :
    rollRandom R (some sk) = rollUniform R ∧ rollRandom R none = rollUniform R :=
  ⟨rfl, rfl⟩

/-- C4: the die pipeline scales to `[1, sides]` without flooring
`sides`, so for fractional `sides` the result can exceed
`⌊sides⌋`: the in-range raw draw `15/16` with `sides = 2.6` yields
`round(scale(15/16, [0,1], [1, 2.6]), 0) = round(2.5) = 3 > 2 = ⌊2.6⌋`,
violating the claimed range `[1, floor(sides)]`. -/
theorem claim4_d_exceeds_floor_on_fractional_sides :
    dPipeline (15 / 16) (13 / 5) = 3
    ∧ ((13 / 5 : ℚ).floor : ℚ) = 2
    ∧ ¬(dPipeline (15 / 16) (13 / 5) ≤ ((13 / 5 : ℚ).floor : ℚ))
    ∧ (0 ≤ (15 / 16 : ℚ) ∧ (15 / 16 : ℚ) ≤ 1) ∧ (1 : ℚ) ≤ 13 / 5 :=
  ⟨by decide, by decide, by decide, ⟨by decide, by decide⟩, by decide⟩

/-- C7: setting any defined seed on a Manager clears the history and
leaves `maxHistory` unchanged, for the capacities the data model admits
(the default `Infinity`, where the re-applied `max` is rejected by
`Number.isSafeInteger` but coincides with the fresh default, or a finite
safe integer, which the setter re-applies). -/
theorem claim7_reseed_clears_history_keeps_max (R : RollState) (s : Seed)
    (e : List ℕ) (hs : s ≠ .undef) (hne : R.hist.items ≠ [])
    (hcap : R.hist.max = none ∨ ∃ q : ℚ, R.hist.max = some q ∧ isSafeInteger q = true) :
    (rollSeedSet R s e).hist.view = [] ∧ (rollSeedSet R s e).hist.max = R.hist.max := by
  have hhist : (rollSeedSet R s e).hist = (mkHistory none).setMax (some R.hist.max) := by
    cases s with
    | undef => exact absurd rfl hs
    | num q => rfl
    | nan => rfl
    | infty => rfl
    | arr l => rfl
    | nullv => rfl
    | other => rfl
  rw [hhist]
  rcases hcap with hcap | ⟨q, hq, hsafe⟩
  · rw [hcap]
    exact ⟨rfl, rfl⟩
  · rw [hq]
    constructor
    · unfold HistoryState.setMax mkHistory
      split
      · rfl
      · rfl
      · split <;> rfl
    · show (HistoryState.setMax ⟨[], none⟩ (some (some q))).max = some q
      simp [HistoryState.setMax, hsafe]

/-- C7 witness: a Manager with one history entry and capacity 5,
re-seeded with the integer 2. -/
theorem claim7_reseed_witness :
    ((Seed.num 2 ≠ Seed.undef)
      ∧ (RollState.mk (mkUniform (.num 1) []) ⟨[[1 / 2]], some 5⟩).hist.items ≠ []
      ∧ isSafeInteger 5 = true)
    ∧ ((rollSeedSet (RollState.mk (mkUniform (.num 1) []) ⟨[[1 / 2]], some 5⟩)
          (.num 2) []).hist.view = []
      ∧ (rollSeedSet (RollState.mk (mkUniform (.num 1) []) ⟨[[1 / 2]], some 5⟩)
          (.num 2) []).hist.max
          = (RollState.mk (mkUniform (.num 1) []) ⟨[[1 / 2]], some 5⟩).hist.max) :=
  ⟨⟨by intro hx; exact Seed.noConfusion hx, by intro hx; exact List.noConfusion hx, by decide⟩,
    claim7_reseed_clears_history_keeps_max _ (.num 2) []
      (by intro hx; exact Seed.noConfusion hx)
      (by intro hx; exact List.noConfusion hx)
      (Or.inr ⟨5, rfl, by decide⟩)⟩

/-- C10: on a Manager with empty history and no array argument, `mean()`
and `standardDeviation()` do not return a number — the underlying
`reduce` on `[]` raises a `TypeError` (for any square-root function) —
and `median()` returns `NaN`; nothing catches these, so they are not
routed through the logging/self-healing channel. -/
theorem claim10_empty_input_stats (R : RollState) (sqrtFn : ℚ → ℚ)
    (h : R.hist.view = []) :
    rollMean R none = .error .typeError
    ∧ rollStdDev sqrtFn R none = .error .typeError
    ∧ rollMedian R none = none := by
  refine ⟨?_, ?_, ?_⟩
  · unfold rollMean
    rw [Option.getD_none, h]
    rfl
  · unfold rollStdDev
    rw [Option.getD_none, h]
    rfl
  · unfold rollMedian
    rw [Option.getD_none, h]
    rfl

/-- C10 witness: a freshly constructed Manager (seed 1, default
capacity) has empty history, and its empty-input statistics behave as
stated (instantiated with the identity in place of `Math.sqrt`). -/
theorem claim10_empty_input_stats_witness :
    (mkRoll (.num 1) none []).hist.view = []
    ∧ (rollMean (mkRoll (.num 1) none []) none = .error .typeError
      ∧ rollStdDev id (mkRoll (.num 1) none []) none = .error .typeError
      ∧ rollMedian (mkRoll (.num 1) none []) none = none) :=
  ⟨rfl, claim10_empty_input_stats (mkRoll (.num 1) none []) id rfl⟩

/-- C6 counterexample: with skew 0 and an out-of-range first draw, the
source computes `fix((fix(0/10 + 0.5)) ** 4) ** 1 = 1/16` — the
recursive call receives the rewritten skew (exponent 1), rewrites it
again to 4, and the outer exponent is applied to the resampled value —
while the claimed policy (same skew, exponent only in range) yields
`1/2`. -/
theorem claim6_counterexample :
    gaussianWith ipow bmsCEx 2 0 0 = 1 / 16
    ∧ gaussianSpecResample ipow bmsCEx 2 0 0 = 1 / 2
    ∧ gaussianWith ipow bmsCEx 2 0 0 ≠ gaussianSpecResample ipow bmsCEx 2 0 0 :=
  ⟨by decide, by decide, by decide⟩

/-- C6 (amended): when the rescaled Box-Muller value falls outside
`[0, 1]`, the draw is discarded and resampled from the freshly
constructed source (the next oracle index, not the caller source), but
the recursive call receives the *effective exponent* as its raw skew
argument (not the original skew), and the final `fix(num ** e)` is
applied to the resampled value as well; when the rescaled value lies in
`[0, 1]` it is used directly, with the exponent applied, and no fresh
source is consulted. -/
theorem claim6_gaussian_resample_structure (pw : ℚ → ℚ → ℚ) (bms : ℕ → ℚ)
    (fuel d : ℕ) (skew : ℚ) :
    (fixQ (fixQ (bms d) / 10 + 1 / 2) > 1 ∨ fixQ (fixQ (bms d) / 10 + 1 / 2) < 0 →
      gaussianWith pw bms (fuel + 1) d skew
        = fixQ (pw (gaussianWith pw bms fuel (d + 1) (scaleSkew skew)) (scaleSkew skew)))
    ∧ (¬(fixQ (fixQ (bms d) / 10 + 1 / 2) > 1 ∨ fixQ (fixQ (bms d) / 10 + 1 / 2) < 0) →
      gaussianWith pw bms (fuel + 1) d skew
        = fixQ (pw (fixQ (fixQ (bms d) / 10 + 1 / 2)) (scaleSkew skew))) := by
  constructor
  · intro hout
    simp only [gaussianWith, if_pos hout]
  · intro hin
    simp only [gaussianWith, if_neg hin]

/-- C6 witness: the amended structure evaluated at the counterexample
oracle (both branches exercised: index 0 is out of range, index 1 in
range). -/
theorem claim6_gaussian_resample_structure_witness :
    ((fixQ (fixQ (bmsCEx 0) / 10 + 1 / 2) > 1 ∨ fixQ (fixQ (bmsCEx 0) / 10 + 1 / 2) < 0)
      ∧ gaussianWith ipow bmsCEx 2 0 0
          = fixQ (ipow (gaussianWith ipow bmsCEx 1 1 (scaleSkew 0)) (scaleSkew 0)))
    ∧ (¬(fixQ (fixQ (bmsCEx 1) / 10 + 1 / 2) > 1 ∨ fixQ (fixQ (bmsCEx 1) / 10 + 1 / 2) < 0)
      ∧ gaussianWith ipow bmsCEx 1 1 4
          = fixQ (ipow (fixQ (fixQ (bmsCEx 1) / 10 + 1 / 2)) (scaleSkew 4))) :=
  ⟨⟨by decide, (claim6_gaussian_resample_structure ipow bmsCEx 1 0 0).1 (by decide)⟩,
    ⟨by decide, (claim6_gaussian_resample_structure ipow bmsCEx 0 1 4).2 (by decide)⟩⟩

theorem modesScan_counts (arr : List ℚ) :
    ∀ (c0 : ℚ → ℕ) (m0 : ℕ) (x : ℚ),
      (modesScan arr c0 m0).1 x = c0 x + arr.count x := by
  induction arr with
  | nil => intro c0 m0 x; simp [modesScan]
  | cons n rest ih =>
    intro c0 m0 x
    show (modesScan rest (countsUpdate c0 n) _).1 x = _
    rw [ih]
    by_cases hx : x = n
    · subst hx
      rw [List.count_cons_self]
      simp [countsUpdate]
      omega
    · rw [List.count_cons_of_ne hx]
      simp [countsUpdate, hx]

theorem modesScan_max_mono (arr : List ℚ) :
    ∀ (c0 : ℚ → ℕ) (m0 : ℕ), m0 ≤ (modesScan arr c0 m0).2 := by
  induction arr with
  | nil => intro c0 m0; simp [modesScan]
  | cons n rest ih =>
    intro c0 m0
    show m0 ≤ (modesScan rest (countsUpdate c0 n) _).2
    refine le_trans ?_ (ih _ _)
    split <;> omega

theorem modesScan_max_ge (arr : List ℚ) :
    ∀ (c0 : ℚ → ℕ) (m0 : ℕ) (x : ℚ), x ∈ arr →
      c0 x + arr.count x ≤ (modesScan arr c0 m0).2 := by
  induction arr with
  | nil => intro c0 m0 x hx; simp at hx
  | cons n rest ih =>
    intro c0 m0 x hx
    show c0 x + (n :: rest).count x
      ≤ (modesScan rest (countsUpdate c0 n)
          (if countsUpdate c0 n n > m0 then countsUpdate c0 n n else m0)).2
    have hcu : countsUpdate c0 n n = c0 n + 1 := by simp [countsUpdate]
    by_cases hmem : x ∈ rest
    · have h2 := ih (countsUpdate c0 n)
        (if countsUpdate c0 n n > m0 then countsUpdate c0 n n else m0) x hmem
      by_cases hx2 : x = n
      · subst hx2
        rw [List.count_cons_self, hcu]
        rw [hcu] at h2
        omega
      · rw [List.count_cons_of_ne hx2]
        have hcx : countsUpdate c0 n x = c0 x := by simp [countsUpdate, hx2]
        rw [hcx] at h2
        exact h2
    · have hx2 : x = n := by
        rcases List.mem_cons.mp hx with h | h
        · exact h
        · exact absurd h hmem
      subst hx2
      rw [List.count_cons_self, List.count_eq_zero_of_not_mem hmem, hcu]
      have hmono := modesScan_max_mono rest (countsUpdate c0 x)
        (if c0 x + 1 > m0 then c0 x + 1 else m0)
      have hstep : c0 x + 1 ≤ (if c0 x + 1 > m0 then c0 x + 1 else m0) := by
        split <;> omega
      omega

theorem modesScan_max_le (arr : List ℚ) :
    ∀ (c0 : ℚ → ℕ) (m0 : ℕ) (B : ℕ), m0 ≤ B →
      (∀ x ∈ arr, c0 x + arr.count x ≤ B) →
      (modesScan arr c0 m0).2 ≤ B := by
  induction arr with
  | nil => intro c0 m0 B hm _; simpa [modesScan] using hm
  | cons n rest ih =>
    intro c0 m0 B hm hall
    show (modesScan rest (countsUpdate c0 n)
      (if countsUpdate c0 n n > m0 then countsUpdate c0 n n else m0)).2 ≤ B
    have hcu : countsUpdate c0 n n = c0 n + 1 := by simp [countsUpdate]
    have hn := hall n (List.mem_cons_self n rest)
    rw [List.count_cons_self] at hn
    apply ih
    · rw [hcu]
      split <;> omega
    · intro x hx
      by_cases hx2 : x = n
      · subst hx2
        rw [hcu]
        omega
      · have hcx : countsUpdate c0 n x = c0 x := by simp [countsUpdate, hx2]
        rw [hcx]
        have hcnt := hall x (List.mem_cons_of_mem n hx)
        rw [List.count_cons_of_ne hx2] at hcnt
        exact hcnt

theorem indexUpperBound_aux (arr : List ℚ) :
    ∀ acc : ℕ, acc ≤ arr.foldl (fun m v => if isArrayIndex v then max m (v.num.toNat + 1) else m) acc
      ∧ ∀ v ∈ arr, isArrayIndex v = true →
        v.num.toNat + 1 ≤ arr.foldl (fun m v => if isArrayIndex v then max m (v.num.toNat + 1) else m) acc := by
  induction arr with
  | nil =>
    intro acc
    exact ⟨le_refl _, by intro v hv; simp at hv⟩
  | cons u rest ih =>
    intro acc
    have hstep : acc ≤ (if isArrayIndex u then max acc (u.num.toNat + 1) else acc) := by
      split
      · exact le_max_left _ _
      · exact le_refl _
    constructor
    · exact le_trans hstep (ih _).1
    · intro v hv hidx
      rcases List.mem_cons.mp hv with h | h
      · subst h
        refine le_trans ?_ (ih (if isArrayIndex v then max acc (v.num.toNat + 1) else acc)).1
        rw [if_pos hidx]
        exact le_max_right _ _
      · exact (ih _).2 v h hidx

theorem mem_lt_indexUpperBound {arr : List ℚ} {v : ℚ} (hv : v ∈ arr)
    (hidx : isArrayIndex v = true) : v.num.toNat < indexUpperBound arr := by
  have h := (indexUpperBound_aux arr 0).2 v hv hidx
  unfold indexUpperBound
  omega

theorem fixQ_natCast (n : ℕ) : fixQ (n : ℚ) = n := by
  have h := fixQ_intCast (n : ℤ)
  rwa [Int.cast_natCast] at h

/-- C8 (amended): for a nonempty list of *nonnegative integer* samples
(canonical array indices), `modes` returns exactly the values tied for
the maximum frequency, in ascending order, each through NumericFix
(which fixes nothing on integers).  The counterexamples show the claim
fails as soon as a negative or fractional value must be reported. -/
theorem claim8_modes_ties_ascending (l : List ℕ) (hlt : ∀ x ∈ l, x < 2 ^ 32 - 1)
    (hne : l ≠ []) :
    (∀ i : ℕ, ((i : ℚ) ∈ Elemstats.modes (l.map (fun n : ℕ => (n : ℚ)))
        ↔ i ∈ l ∧ ∀ w ∈ l, l.count w ≤ l.count i))
    ∧ (Elemstats.modes (l.map (fun n : ℕ => (n : ℚ)))).Pairwise (· < ·) := by
  have hinj : Function.Injective (fun n : ℕ => (n : ℚ)) := by
    intro a b hab
    have hab2 : (a : ℚ) = (b : ℚ) := hab
    exact_mod_cast hab2
  set arr := l.map (fun n : ℕ => (n : ℚ)) with harr
  have hmemQ : ∀ i : ℕ, (i : ℚ) ∈ arr ↔ i ∈ l := by
    intro i
    constructor
    · intro h
      rcases List.mem_map.mp h with ⟨j, hj, hjq⟩
      have hji : j = i := hinj hjq
      exact hji ▸ hj
    · intro h
      exact List.mem_map_of_mem _ h
  have hcountQ : ∀ i : ℕ, arr.count (i : ℚ) = l.count i := by
    intro i
    exact List.count_map_of_injective l _ hinj i
  have hcounts : ∀ x, (modesScan arr (fun _ => 0) 0).1 x = arr.count x := by
    intro x
    rw [modesScan_counts]
    simp
  have hidx : ∀ i : ℕ, i ∈ l → isArrayIndex (i : ℚ) = true := by
    intro i hi
    unfold isArrayIndex
    rw [Bool.and_eq_true, Bool.and_eq_true, beq_iff_eq]
    refine ⟨⟨Rat.den_natCast i, ?_⟩, ?_⟩
    · rw [decide_eq_true_eq, Rat.num_natCast]
      positivity
    · rw [decide_eq_true_eq, Rat.num_natCast]
      have hl := hlt i hi
      omega
  have hmaxchar : ∀ i : ℕ, i ∈ l →
      ((modesScan arr (fun _ => 0) 0).2 = l.count i ↔ ∀ w ∈ l, l.count w ≤ l.count i) := by
    intro i hi
    constructor
    · intro hmx w hw
      have h1 := modesScan_max_ge arr (fun _ => 0) 0 (w : ℚ) ((hmemQ w).mpr hw)
      rw [hcountQ] at h1
      omega
    · intro hmax
      have h1 := modesScan_max_ge arr (fun _ => 0) 0 (i : ℚ) ((hmemQ i).mpr hi)
      rw [hcountQ] at h1
      have h2 : (modesScan arr (fun _ => 0) 0).2 ≤ l.count i := by
        apply modesScan_max_le
        · omega
        · intro x hx
          rcases List.mem_map.mp hx with ⟨j, hj, hjq⟩
          subst hjq
          rw [hcountQ]
          have hj2 := hmax j hj
          omega
      omega
  have hfilter : ∀ i : ℕ,
      (i ∈ (List.range (indexUpperBound arr)).filter
        (fun i : ℕ => decide ((i : ℚ) ∈ arr)
          && ((modesScan arr (fun _ => 0) 0).1 (i : ℚ) == (modesScan arr (fun _ => 0) 0).2)))
      ↔ i ∈ l ∧ ∀ w ∈ l, l.count w ≤ l.count i := by
    intro i
    rw [List.mem_filter, List.mem_range, Bool.and_eq_true, decide_eq_true_eq, beq_iff_eq]
    constructor
    · rintro ⟨-, hmem, heq⟩
      have hil : i ∈ l := (hmemQ i).mp hmem
      refine ⟨hil, ?_⟩
      rw [hcounts, hcountQ] at heq
      exact (hmaxchar i hil).mp heq.symm
    · rintro ⟨hil, hmax⟩
      have hmem : (i : ℚ) ∈ arr := (hmemQ i).mpr hil
      refine ⟨?_, hmem, ?_⟩
      · have h1 := mem_lt_indexUpperBound hmem (hidx i hil)
        have h2 : ((i : ℚ)).num.toNat = i := by
          rw [Rat.num_natCast]
          exact Int.toNat_natCast i
        rwa [h2] at h1
      · rw [hcounts, hcountQ]
        exact ((hmaxchar i hil).mpr hmax).symm
  have hmodes : Elemstats.modes arr
      = ((List.range (indexUpperBound arr)).filter
        (fun i : ℕ => decide ((i : ℚ) ∈ arr)
          && ((modesScan arr (fun _ => 0) 0).1 (i : ℚ)
            == (modesScan arr (fun _ => 0) 0).2))).map (fun i : ℕ => fixQ (i : ℚ)) := by
    simp only [Elemstats.modes]
  constructor
  · intro i
    rw [hmodes, List.mem_map]
    constructor
    · rintro ⟨j, hj, hjq⟩
      rw [fixQ_natCast] at hjq
      have hji : j = i := by exact_mod_cast hjq
      subst hji
      exact (hfilter j).mp hj
    · intro h
      exact ⟨i, (hfilter i).mpr h, fixQ_natCast i⟩
  · rw [hmodes, List.pairwise_map]
    have hrange : (List.range (indexUpperBound arr)).Pairwise (· < ·) :=
      List.pairwise_lt_range _
    refine List.Pairwise.imp ?_ (hrange.sublist (List.filter_sublist _))
    intro a b hab
    rw [fixQ_natCast, fixQ_natCast]
    exact_mod_cast hab

/-- C8 counterexample: a list whose sole (hence most frequent) value is
negative or fractional produces an *empty* `modes` — the value feeds the
running maximum but is never visited by `counts.forEach`, so the claimed
result (the value itself) is not returned. -/
theorem claim8_modes_counterexample :
    Elemstats.modes [(-1 : ℚ)] = []
    ∧ Elemstats.modes [(1 : ℚ) / 2] = []
    ∧ ((-1 : ℚ) ∉ Elemstats.modes [(-1 : ℚ)])
    ∧ ((1 : ℚ) / 2 ∉ Elemstats.modes [(1 : ℚ) / 2]) :=
  ⟨by decide, by decide, by decide, by decide⟩

/-- C8 witness: `modes [2, 2, 3]` with the amended characterization at
the sample values. -/
theorem claim8_modes_ties_ascending_witness :
    ((∀ x ∈ [2, 2, 3], x < 2 ^ 32 - 1) ∧ ([2, 2, 3] : List ℕ) ≠ [])
    ∧ ((∀ i : ℕ, ((i : ℚ) ∈ Elemstats.modes ([2, 2, 3].map (fun n : ℕ => (n : ℚ)))
        ↔ i ∈ [2, 2, 3] ∧ ∀ w ∈ [2, 2, 3], List.count w [2, 2, 3] ≤ List.count i [2, 2, 3]))
      ∧ (Elemstats.modes ([2, 2, 3].map (fun n : ℕ => (n : ℚ)))).Pairwise (· < ·)) :=
  ⟨⟨by decide, by decide⟩,
    claim8_modes_ties_ascending [2, 2, 3] (by decide) (by decide)⟩

/-- C9 counterexample: `Scaled.round(-0.5, 0)` evaluates to `0`, not to
the `-1` required by round-half-away-from-zero — `Math.round` rounds the
tie `-0.5` toward `+∞` (to `-0`), so negative ties do not move away from
zero. -/
theorem claim9_counterexample :
    roundQ (-(1 : ℚ) / 2) 0 = 0 ∧ roundQ (-(1 : ℚ) / 2) 0 ≠ -1 := by
  constructor <;> decide

/-- C9 (amended): `round(value, places)` rounds to `places` decimal
digits with ties toward `+∞` (JS `Math.round` semantics), then applies
NumericFix: a fractional digit of exactly 5 at the target place rounds a
positive value up and a negative value toward zero (`0.5 → 1`,
`-0.5 → 0`).  The first conjunct evaluates a tie at an arbitrary decimal
place, the second at integers. -/
theorem claim9_round_ties_toward_posinf (n : ℤ) (p : ℕ) :
    roundQ ((2 * n + 1 : ℚ) / (2 * 10 ^ p)) p = fixQ ((n + 1 : ℚ) / 10 ^ p)
    ∧ roundQ ((n : ℚ) + 1 / 2) 0 = (n : ℚ) + 1 := by
  have hp : (0 : ℚ) < 10 ^ p := by positivity
  constructor
  · unfold roundQ
    rw [jsRound_eq_floor]
    have harg : (2 * n + 1 : ℚ) / (2 * 10 ^ p) * 10 ^ p = (n : ℚ) + 1 / 2 := by
      field_simp
      ring
    rw [harg]
    have hfl : ⌊(n : ℚ) + 1 / 2 + 1 / 2⌋ = n + 1 := by
      have : (n : ℚ) + 1 / 2 + 1 / 2 = ((n + 1 : ℤ) : ℚ) := by push_cast; ring
      rw [this, Int.floor_intCast]
    rw [hfl]
    push_cast
    ring_nf
  · unfold roundQ
    rw [jsRound_eq_floor]
    have harg : ((n : ℚ) + 1 / 2) * 10 ^ (0 : ℕ) = (n : ℚ) + 1 / 2 := by norm_num
    rw [harg]
    have hfl : ⌊(n : ℚ) + 1 / 2 + 1 / 2⌋ = n + 1 := by
      have : (n : ℚ) + 1 / 2 + 1 / 2 = ((n + 1 : ℤ) : ℚ) := by push_cast; ring
      rw [this, Int.floor_intCast]
    rw [hfl]
    have : ((n + 1 : ℤ) : ℚ) / 10 ^ (0 : ℕ) = ((n + 1 : ℤ) : ℚ) := by norm_num
    rw [this, fixQ_intCast]
    push_cast
    ring

end RollSpec
